import Mathlib

/-!
Shallow embedding of the hyper-automata simulator core
(`src/base.py`, `src/run_manager.py`, `src/simulator.py`).

Python strings stand for states, transition symbols and quantifier letters;
a word is embedded as the list of its one-character strings (Python's
`deque(word)`), so a track buffer is a `List String`.  The idle/skip marker
is the string `"#"`.  Python `int` is embedded as `Int` where sign matters
(the track count `k`).
-/

/-- A transition `(source, symbol_vector, target)` of `delta`. -/
abbrev Transition := String × List String × String

/-- One track buffer: the not-yet-consumed suffix of a word, as in the
`deque` held in `RunManager.variables`. -/
abbrev Buf := List String

/-- The `k` track buffers, in track order `'1' .. 'k'`. -/
abbrev Bufs := List Buf

/-- The data carried by `NFH.__init__` (`src/base.py`).  Python sets and
dicts are embedded as lists; only membership and emptiness of the set
fields matter to the core, while `delta`'s list order fixes the (in Python
arbitrary but per-object stable) iteration order of the transition set. -/
structure NFH where
  states : List String
  initial_states : List String
  accepting_states : List String
  k : Int
  delta : List Transition
  alpha : List String
  alphabet : List String
deriving Repr, DecidableEq

/-- The conjunction of the `assert` statements in `NFH.__init__`
(`src/base.py` lines 18-27): construction succeeds iff this holds. -/
def nfhValid (A : NFH) : Bool :=
  decide (A.states ≠ []) &&
  A.initial_states.all (fun q => A.states.contains q) &&
  decide (A.initial_states ≠ []) &&
  A.accepting_states.all (fun q => A.states.contains q) &&
  decide (A.accepting_states ≠ []) &&
  A.delta.all (fun t => A.states.contains t.1 && A.states.contains t.2.2) &&
  A.delta.all (fun t => t.2.1.all (fun s => A.alphabet.contains s || s == "#")) &&
  A.delta.all (fun t => decide ((t.2.1.length : Int) = A.k)) &&
  A.alpha.all (fun q => q == "E" || q == "A") &&
  decide ((A.alpha.length : Int) = A.k)

/-- `self.transition_map[q]`: the outgoing transitions of `q`, in `delta`
order (`src/base.py` lines 29-31). -/
def transitionMap (A : NFH) (q : String) : List Transition :=
  A.delta.filter (fun t => t.1 == q)

/-- `buffer[0] if buffer else '#'` (`src/run_manager.py` line 70). -/
def currentChar (b : Buf) : String :=
  b.headD "#"

/-- The inner validity loop of `RunManager.valid_transitions`
(`src/run_manager.py` lines 66-73): every symbol is either the idle marker
or the current character of its track's buffer.  The two lists have equal
length whenever the NFH is valid and the assignment has `k` words, the
only situation the Python code reaches. -/
def validSyms : List String → Bufs → Bool
  | [], _ => true
  | _ :: _, [] => true
  | s :: ss, b :: bs =>
    if s != "#" && s != currentChar b then false else validSyms ss bs

/-- `RunManager.valid_transitions` (`src/run_manager.py` lines 56-76). -/
def valid_transitions (A : NFH) (q : String) (bufs : Bufs) : List Transition :=
  (transitionMap A q).filter (fun t => validSyms t.2.1 bufs)

/-- The buffer update of `RunManager.move` (`src/run_manager.py` lines
85-87): pop the head of every track whose symbol is not idle.  Buffers
beyond the symbol vector are untouched, as with Python's `zip`. -/
def moveBufs : List String → Bufs → Bufs
  | [], bufs => bufs
  | _ :: _, [] => []
  | s :: ss, b :: bs => (if s == "#" then b else b.tail) :: moveBufs ss bs

/-- `RunManager.acceptingState` (`src/run_manager.py` lines 130-131). -/
def acceptingState (A : NFH) (q : String) (bufs : Bufs) : Bool :=
  A.accepting_states.contains q && bufs.all (fun b => b.isEmpty)

/-- The transition history accumulated in `run_history`. -/
abbrev Hist := List Transition

/-- Scan the branch results of the nondeterministic case of
`RunManager.run` (`src/run_manager.py` lines 111-116) in order: the first
child that resolves `True` wins, a child whose own `run()` never returns
(embedded as `none`) blocks the parent, and if every child resolves
`False` the parent returns `False` keeping its own history. -/
def scanBranches (hist : Hist) : List (Option (Bool × Hist)) → Option (Bool × Hist)
  | [] => some (false, hist)
  | none :: _ => none
  | some (true, h) :: _ => some (true, hist ++ h)
  | some (false, _) :: rest => scanBranches hist rest

/-- `RunManager.run` (`src/run_manager.py` lines 101-118), fuel-indexed:
`none` means the `while True` loop has not returned within `fuel`
iterations (so `∀ fuel, … = none` embeds non-termination).  A branch child
is a fresh manager at the transition's target with the moved buffers and a
one-transition history, exactly as `branch` builds it. -/
def runFuel (A : NFH) : Nat → String → Bufs → Hist → Option (Bool × Hist)
  | 0, _, _, _ => none
  | n + 1, q, bufs, hist =>
    if acceptingState A q bufs then some (true, hist)
    else
      match valid_transitions A q bufs with
      | [] => some (false, hist)
      | [t] => runFuel A n t.2.2 (moveBufs t.2.1 bufs) (hist ++ [t])
      | t1 :: t2 :: ts =>
        scanBranches hist
          ((t1 :: t2 :: ts).map
            (fun t => runFuel A n t.2.2 (moveBufs t.2.1 bufs) [t]))

/-- `list(nfh.initial_states)[0]` (`src/run_manager.py` line 36): the
default initial state is the arbitrarily-first element of the initial-state
set; a valid NFH has a nonempty one, so the default never fires. -/
def defaultInit (A : NFH) : String :=
  A.initial_states.headD ""

/-- `RunManager(nfh, assignment).run()` for a list assignment: buffers are
the words themselves, the run starts at the default initial state with an
empty history. -/
def runDefault (A : NFH) (assignment : List Buf) (fuel : Nat) :
    Option (Bool × Hist) :=
  runFuel A fuel (defaultInit A) assignment []

/-!
The quantifier evaluator (`src/simulator.py`).  A `Hyperword` is the
(arbitrary but fixed) iteration order of the Python word set; a quantifier
is the pair `(q_type, var_idx)` built by `zip(A.alpha, range(1, A.k + 1))`;
the partial assignment dict is an association list whose most recent
binding wins, matching `assignment.copy()` followed by an overwrite.
`run()` at a leaf is fuel-indexed, so the evaluator is too: `none` means a
leaf search did not return (or, for malformed input the Python code never
builds, a `KeyError` / implicit-`None` fall-through). -/

/-- A word of the hyperword, as its list of one-character strings. -/
abbrev Word := List String

abbrev Hyperword := List Word

abbrev Quantifier := String × Int

abbrev Assignment := List (Int × Word)

/-- `assignment[var_idx] = word` on a fresh `assignment.copy()`. -/
def insertA (i : Int) (w : Word) (asn : Assignment) : Assignment :=
  (i, w) :: asn

/-- Dict lookup `assignment[i]`; `none` embeds a `KeyError`. -/
def lookupA (asn : Assignment) (i : Int) : Option Word :=
  match asn with
  | [] => none
  | (j, w) :: rest => if j == i then some w else lookupA rest i

/-- Python's `range(1, k + 1)` for `k : Int` (empty when `k ≤ 0`). -/
def intRange1 (k : Int) : List Int :=
  (List.range k.toNat).map (fun (i : Nat) => (i : Int) + 1)

/-- The comprehension `[assignment[i] for i in range(1, A.k + 1)]`;
`none` embeds a `KeyError` on a missing binding. -/
def lookupAll (asn : Assignment) : List Int → Option (List Word)
  | [] => some []
  | i :: rest =>
    match lookupA asn i with
    | none => none
    | some w =>
      match lookupAll asn rest with
      | none => none
      | some ws => some (w :: ws)

/-- The leaf of `check_models` (`src/simulator.py` lines 21-26): build
`final_assignment`, then one `RunManager` search; a `True` run yields that
manager as the only witness, a `False` run yields no witnesses. -/
def leafCheck (A : NFH) (fuel : Nat) (asn : Assignment) :
    Option (Bool × List Hist) :=
  match lookupAll asn (intRange1 A.k) with
  | none => none
  | some finalAssignment =>
    match runFuel A fuel (defaultInit A) finalAssignment [] with
    | none => none
    | some (true, h) => some (true, [h])
    | some (false, _) => some (false, [])

/-- The `Exists` loop of `check_models` (`src/simulator.py` lines 35-42),
over the already-computed branch results in hyperword order: first success
short-circuits, a non-returning branch blocks, exhaustion is `False` with
no witnesses.  (Results after the decisive one are never inspected, so
computing them eagerly does not change the outcome.) -/
def existsScan : List (Option (Bool × List Hist)) → Option (Bool × List Hist)
  | [] => some (false, [])
  | none :: _ => none
  | some (true, ms) :: _ => some (true, ms)
  | some (false, _) :: rest => existsScan rest

/-- The `ForAll` loop of `check_models` (`src/simulator.py` lines 48-56):
a failing branch short-circuits to `False` with no witnesses, a
non-returning branch blocks, and success accumulates every branch's
witnesses in order. -/
def forallScan : List (Option (Bool × List Hist)) → List Hist →
    Option (Bool × List Hist)
  | [], acc => some (true, acc)
  | none :: _, _ => none
  | some (false, _) :: _, _ => some (false, [])
  | some (true, ms) :: rest, acc => forallScan rest (acc ++ ms)

/-- `check_models` (`src/simulator.py` lines 20-56).  A quantifier letter
other than `"E"`/`"A"` falls off the end of the Python function, embedded
as `none`; valid NFHs never produce one. -/
def check_models (A : NFH) (S : Hyperword) (fuel : Nat) :
    List Quantifier → Assignment → Option (Bool × List Hist)
  | [], asn => leafCheck A fuel asn
  | (qType, varIdx) :: rest, asn =>
    let results := S.map (fun w => check_models A S fuel rest (insertA varIdx w asn))
    if qType == "E" then
      if S.isEmpty then some (false, []) else existsScan results
    else if qType == "A" then
      if S.isEmpty then some (true, []) else forallScan results []
    else none

/-- `checkMembership` (`src/simulator.py` lines 6-17): the singleton
optimization binds every track to the one word (`[w] * A.k`, empty when
`k ≤ 0`, exactly Python list repetition) and runs one search; otherwise the
quantifier recursion starts from `zip(A.alpha, range(1, A.k + 1))` and the
empty assignment. -/
def checkMembership (A : NFH) (S : Hyperword) (fuel : Nat) :
    Option (Bool × List Hist) :=
  match S with
  | [w] =>
    (match runFuel A fuel (defaultInit A) (List.replicate A.k.toNat w) [] with
     | none => none
     | some (true, h) => some (true, [h])
     | some (false, _) => some (false, []))
  | _ => check_models A S fuel (A.alpha.zip (intRange1 A.k)) []

/-- The single `RunManager` check of the singleton optimization, on the
assignment `[w] * A.k`, packaged like a leaf result. -/
def singleRun (A : NFH) (w : Word) (fuel : Nat) : Option (Bool × List Hist) :=
  match runFuel A fuel (defaultInit A) (List.replicate A.k.toNat w) [] with
  | none => none
  | some (true, h) => some (true, [h])
  | some (false, _) => some (false, [])

/-!
Cursor view of the buffers: the Python `RunManager` stores the remaining
suffix of each track's word, so a cursor vector `p` over original words
`ws` corresponds to the buffers `(ws i).drop (p i)`.
-/

/-- The buffers reached from words `ws` after consuming `p i` characters
of track `i`. -/
def bufsOf (ws : List Word) (p : List Nat) : Bufs :=
  List.zipWith (fun w n => w.drop n) ws p

/-- The cursor update of `RunManager.move`: advance by one on every
non-idle track, leave idle tracks untouched. -/
def advanceCursors (syms : List String) (p : List Nat) : List Nat :=
  List.zipWith (fun s n => if s == "#" then n else n + 1) syms p

/-- `run()` never returning on this configuration: the `while True` loop
of `RunManager.run` is still going after any number of iterations,
whatever history the manager carries. -/
def divergesFrom (A : NFH) (q : String) (bufs : Bufs) : Prop :=
  ∀ fuel hist, runFuel A fuel q bufs hist = none

/-!
Concrete automata used to settle the claims.  Each is accepted by
`NFH.__init__` (`nfhValid` evaluates to `true`).
-/

/-- A valid one-track NFH whose only transition is an idle self-loop on
the non-accepting initial state. -/
def idleLoopNFH : NFH :=
  ⟨["q0", "q1"], ["q0"], ["q1"], 1, [("q0", ["#"], "q0")], ["E"], ["a"]⟩

/-- A construction input with `k = 0`: every `assert` of `NFH.__init__`
passes. -/
def zeroTrackNFH : NFH :=
  ⟨["q0"], ["q0"], ["q0"], 0, [], [], ["a"]⟩

/-- A construction input whose alphabet contains the idle marker: every
`assert` of `NFH.__init__` passes. -/
def sharpAlphabetNFH : NFH :=
  ⟨["q0"], ["q0"], ["q0"], 1, [("q0", ["#"], "q0")], ["E"], ["#", "a"]⟩

/-- A valid one-track NFH whose accepting run must first take an idle
transition while the track buffer still holds the whole word. -/
def idleStepNFH : NFH :=
  ⟨["q0", "q1", "q2"], ["q0"], ["q2"], 1,
    [("q0", ["#"], "q1"), ("q1", ["a"], "q2")], ["E"], ["a"]⟩

/-- A valid one-track NFH with two initial states whose only accepting
run starts from the second one, `"q1"`. -/
def twoInitialNFH : NFH :=
  ⟨["q0", "q1", "q2"], ["q0", "q1"], ["q2"], 1,
    [("q1", ["a"], "q2")], ["E"], ["a"]⟩

/-- Scenario 1 of the spec: a one-transition, one-track automaton reading
the single letter `a`. -/
def scenarioOneNFH : NFH :=
  ⟨["q0", "q1"], ["q0"], ["q1"], 1, [("q0", ["a"], "q1")], ["E"], ["a", "b"]⟩

/-! ### Shared lemmas -/

/-- A configuration whose only valid transition loops back to itself
without consuming anything keeps the `while True` loop of `run()` spinning
forever: `RunManager.run` has no memo table and no cycle detection. -/
lemma runFuel_idle_selfloop (A : NFH) (q : String) (bufs : Bufs)
    (t : Transition) (hacc : acceptingState A q bufs = false)
    (hvt : valid_transitions A q bufs = [t])
    (htgt : t.2.2 = q) (hmv : moveBufs t.2.1 bufs = bufs) :
    divergesFrom A q bufs := by
  intro fuel
  induction fuel with
  | zero => intro hist; rfl
  | succ n ih =>
    intro hist
    simp only [runFuel, hacc, Bool.false_eq_true, if_false, hvt, htgt, hmv]
    exact ih (hist ++ [t])

/-- `existsScan` reports failure only with no witnesses. -/
lemma existsScan_false_empty :
    ∀ (l : List (Option (Bool × List Hist))) (ws : List Hist),
      existsScan l = some (false, ws) → ws = [] := by
  intro l
  induction l with
  | nil =>
    intro ws h
    simp only [existsScan, Option.some.injEq, Prod.mk.injEq] at h
    exact h.2.symm
  | cons a rest ih =>
    intro ws h
    match a with
    | none => simp [existsScan] at h
    | some (true, ms) => simp [existsScan] at h
    | some (false, ms) => exact ih ws h

/-- `forallScan` reports failure only with no witnesses. -/
lemma forallScan_false_empty :
    ∀ (l : List (Option (Bool × List Hist))) (acc ws : List Hist),
      forallScan l acc = some (false, ws) → ws = [] := by
  intro l
  induction l with
  | nil => intro acc ws h; simp [forallScan] at h
  | cons a rest ih =>
    intro acc ws h
    match a with
    | none => simp [forallScan] at h
    | some (true, ms) => exact ih (acc ++ ms) ws h
    | some (false, ms) =>
      simp only [forallScan, Option.some.injEq, Prod.mk.injEq] at h
      exact h.2.symm

/-- The leaf search reports failure only with no witnesses. -/
lemma leafCheck_false_empty (A : NFH) (fuel : Nat) (asn : Assignment)
    (ws : List Hist) (h : leafCheck A fuel asn = some (false, ws)) :
    ws = [] := by
  unfold leafCheck at h
  split at h
  · simp at h
  · split at h
    · simp at h
    · simp at h
    · simp only [Option.some.injEq, Prod.mk.injEq] at h
      exact h.2.symm

/-- `check_models` reports failure only with no witnesses. -/
lemma check_models_false_empty :
    ∀ (qs : List Quantifier) (A : NFH) (S : Hyperword) (fuel : Nat)
      (asn : Assignment) (ws : List Hist),
      check_models A S fuel qs asn = some (false, ws) → ws = [] := by
  intro qs A S fuel asn ws h
  match qs with
  | [] => exact leafCheck_false_empty A fuel asn ws h
  | (qType, varIdx) :: rest =>
    simp only [check_models] at h
    by_cases hE : (qType == "E") = true
    · rw [if_pos hE] at h
      by_cases hS : S.isEmpty = true
      · rw [if_pos hS] at h
        simp only [Option.some.injEq, Prod.mk.injEq] at h
        exact h.2.symm
      · rw [if_neg hS] at h
        exact existsScan_false_empty _ ws h
    · rw [if_neg hE] at h
      by_cases hA : (qType == "A") = true
      · rw [if_pos hA] at h
        by_cases hS : S.isEmpty = true
        · rw [if_pos hS] at h; simp at h
        · rw [if_neg hS] at h
          exact forallScan_false_empty _ [] ws h
      · rw [if_neg hA] at h; simp at h

/-- `checkMembership` reports failure only with no witnesses. -/
lemma checkMembership_false_empty (A : NFH) (S : Hyperword) (fuel : Nat)
    (ws : List Hist) (h : checkMembership A S fuel = some (false, ws)) :
    ws = [] := by
  match S with
  | [w] =>
    simp only [checkMembership] at h
    split at h
    · simp at h
    · simp at h
    · simp only [Option.some.injEq, Prod.mk.injEq] at h
      exact h.2.symm
  | [] => exact check_models_false_empty _ A [] fuel [] ws h
  | w1 :: w2 :: rest => exact check_models_false_empty _ A _ fuel [] ws h

/-- The search reads the automaton only through `accepting_states` (the
acceptance test) and `delta` (the transition index): two NFHs agreeing on
those fields produce identical runs. -/
lemma runFuel_congr (A B : NFH)
    (hacc : A.accepting_states = B.accepting_states)
    (hdel : A.delta = B.delta) :
    ∀ (fuel : Nat) (q : String) (bufs : Bufs) (hist : Hist),
      runFuel A fuel q bufs hist = runFuel B fuel q bufs hist := by
  intro fuel
  induction fuel with
  | zero => intro q bufs hist; rfl
  | succ n ih =>
    intro q bufs hist
    have h1 : acceptingState A q bufs = acceptingState B q bufs := by
      simp [acceptingState, hacc]
    have h2 : valid_transitions A q bufs = valid_transitions B q bufs := by
      simp [valid_transitions, transitionMap, hdel]
    simp only [runFuel, h1, h2]
    by_cases hc : acceptingState B q bufs = true
    · simp [hc]
    · simp only [Bool.not_eq_true] at hc
      simp only [hc, Bool.false_eq_true, if_false]
      cases hv : valid_transitions B q bufs with
      | nil => rfl
      | cons t ts =>
        cases ts with
        | nil => exact ih _ _ _
        | cons t2 ts2 =>
          show scanBranches hist _ = scanBranches hist _
          congr 1
          exact List.map_congr_left (fun a _ => ih _ _ _)

/-- The leaf check additionally reads `k` (the comprehension bounds) and
the default initial state. -/
lemma leafCheck_congr (A B : NFH)
    (hacc : A.accepting_states = B.accepting_states)
    (hdel : A.delta = B.delta) (hk : A.k = B.k)
    (hinit : defaultInit A = defaultInit B) :
    ∀ (fuel : Nat) (asn : Assignment),
      leafCheck A fuel asn = leafCheck B fuel asn := by
  intro fuel asn
  unfold leafCheck
  rw [hk, hinit]
  simp only [runFuel_congr A B hacc hdel]

/-- `check_models` reads the automaton only through the leaf search. -/
lemma check_models_congr (A B : NFH)
    (hacc : A.accepting_states = B.accepting_states)
    (hdel : A.delta = B.delta) (hk : A.k = B.k)
    (hinit : defaultInit A = defaultInit B) :
    ∀ (qs : List Quantifier) (S : Hyperword) (fuel : Nat) (asn : Assignment),
      check_models A S fuel qs asn = check_models B S fuel qs asn := by
  intro qs
  induction qs with
  | nil => intro S fuel asn; exact leafCheck_congr A B hacc hdel hk hinit fuel asn
  | cons pr rest ih =>
    intro S fuel asn
    obtain ⟨qt, idx⟩ := pr
    simp only [check_models]
    rw [List.map_congr_left (fun w _ => ih S fuel (insertA idx w asn))]

/-- `checkMembership` reads the automaton only through `accepting_states`,
`delta`, `k`, `alpha` and the default initial state — in particular never
through any non-first initial state. -/
lemma checkMembership_congr (A B : NFH)
    (hacc : A.accepting_states = B.accepting_states)
    (hdel : A.delta = B.delta) (hk : A.k = B.k)
    (halpha : A.alpha = B.alpha)
    (hinit : defaultInit A = defaultInit B) :
    ∀ (S : Hyperword) (fuel : Nat),
      checkMembership A S fuel = checkMembership B S fuel := by
  intro S fuel
  match S with
  | [w] =>
    simp only [checkMembership]
    rw [hk, hinit]
    simp only [runFuel_congr A B hacc hdel]
  | [] =>
    show check_models A [] fuel (A.alpha.zip (intRange1 A.k)) [] =
      check_models B [] fuel (B.alpha.zip (intRange1 B.k)) []
    rw [halpha, hk]
    exact check_models_congr A B hacc hdel hk hinit _ [] fuel []
  | w1 :: w2 :: rest =>
    show check_models A _ fuel (A.alpha.zip (intRange1 A.k)) [] =
      check_models B _ fuel (B.alpha.zip (intRange1 B.k)) []
    rw [halpha, hk]
    exact check_models_congr A B hacc hdel hk hinit _ _ fuel []

/-! ### Claims -/

/-- C1 (amended): `RunManager.run` keeps no record of visited
`(state, cursor)` configurations — there is no memo table — so a cycle in
`delta` that consumes nothing, such as an idle self-loop that is the only
valid transition of a non-accepting configuration, makes the search loop
forever: for every number of loop iterations the call has not returned. -/
theorem run_unmemoized_diverges_on_idle_cycle (A : NFH) (q : String)
    (bufs : Bufs) (t : Transition)
    (hacc : acceptingState A q bufs = false)
    (hvt : valid_transitions A q bufs = [t])
    (htgt : t.2.2 = q) (hmv : moveBufs t.2.1 bufs = bufs) :
    divergesFrom A q bufs :=
  runFuel_idle_selfloop A q bufs t hacc hvt htgt hmv

/-- C1 witness: the general divergence theorem applied to the concrete
idle self-loop automaton, at fuel 7. -/
theorem run_unmemoized_diverges_on_idle_cycle_witness :
    acceptingState idleLoopNFH "q0" [["a"]] = false ∧
    valid_transitions idleLoopNFH "q0" [["a"]] = [("q0", ["#"], "q0")] ∧
    moveBufs ["#"] [["a"]] = [["a"]] ∧
    runFuel idleLoopNFH 7 "q0" [["a"]] [] = none :=
  ⟨by decide, by decide, by decide,
    run_unmemoized_diverges_on_idle_cycle idleLoopNFH "q0" [["a"]]
      ("q0", ["#"], "q0") (by decide) (by decide) rfl (by decide) 7 []⟩

/-- C1 counterexample: on the valid NFH whose `delta` is a single idle
self-loop on the non-accepting initial state, with the one-letter word
`a`, `RunManager.run` never returns — there is no memoization bounding the
visits, so the claim that `run` terminates on every input fails. -/
theorem run_diverges_counterexample :
    nfhValid idleLoopNFH = true ∧ divergesFrom idleLoopNFH "q0" [["a"]] :=
  ⟨by decide,
    runFuel_idle_selfloop idleLoopNFH "q0" [["a"]] ("q0", ["#"], "q0")
      (by decide) (by decide) rfl (by decide)⟩

/-- C3 (amended): an idle-marker transition is applicable in every step
regardless of the track buffer's contents — in particular while the buffer
is still non-empty — and taking it leaves the buffer unchanged. -/
theorem idle_applicable_any_buffer (A : NFH) (q q2 : String) (b : Buf)
    (hmem : (q, ["#"], q2) ∈ transitionMap A q) :
    (q, ["#"], q2) ∈ valid_transitions A q [b] ∧ moveBufs ["#"] [b] = [b] := by
  constructor
  · unfold valid_transitions
    rw [List.mem_filter]
    exact ⟨hmem, by simp [validSyms]⟩
  · simp [moveBufs]

/-- C3 witness: the idle transition of `idleStepNFH` is applicable at
`q0` on the non-empty buffer `["a"]`. -/
theorem idle_applicable_any_buffer_witness :
    (("q0", ["#"], "q1") ∈ transitionMap idleStepNFH "q0") ∧
    ((("q0", ["#"], "q1") ∈ valid_transitions idleStepNFH "q0" [["a"]]) ∧
      moveBufs ["#"] [["a"]] = [["a"]]) :=
  ⟨by decide,
    idle_applicable_any_buffer idleStepNFH "q0" "q1" ["a"] (by decide)⟩

/-- C3 counterexample: on the valid one-track NFH `idleStepNFH` with the
word `a`, the search takes the idle transition `(q0, #, q1)` as its very
first step, while the track buffer still holds the whole non-empty word;
so idle transitions are not restricted to fully consumed tracks. -/
theorem idle_taken_nonempty_counterexample :
    (("q0", ["#"], "q1") ∈ valid_transitions idleStepNFH "q0" [["a"]]) ∧
    runFuel idleStepNFH 5 "q0" [["a"]] [] =
      some (true, [("q0", ["#"], "q1"), ("q1", ["a"], "q2")]) ∧
    (["a"] : Buf) ≠ [] :=
  ⟨by decide, by decide, by decide⟩

/-- C5 (amended): the `assert` suite of `NFH.__init__` has no `k > 0`
check; a negative `k` is impossible for a valid NFH only because
`len(alpha) == k` forces `k` to be a list length, while `k = 0` passes
validation, so non-positive `k` is not rejected. -/
theorem valid_nfh_k_nonneg (A : NFH) (h : nfhValid A = true) : 0 ≤ A.k := by
  simp only [nfhValid, Bool.and_eq_true, decide_eq_true_eq] at h
  have hlen : (A.alpha.length : Int) = A.k := h.2
  omega

/-- C5 witness: the nonnegativity theorem applied to the concrete valid
`k = 0` automaton. -/
theorem valid_nfh_k_nonneg_witness :
    nfhValid zeroTrackNFH = true ∧ 0 ≤ zeroTrackNFH.k :=
  ⟨by decide, valid_nfh_k_nonneg zeroTrackNFH (by decide)⟩

/-- C5 counterexample: construction with `k = 0` succeeds — every
`assert` of `NFH.__init__` passes on `zeroTrackNFH`, so an NFH value with
non-positive `k` is produced. -/
theorem zero_k_constructs_counterexample :
    nfhValid zeroTrackNFH = true ∧ zeroTrackNFH.k ≤ 0 := by
  exact ⟨by decide, by decide⟩

/-- C6 (amended): `NFH.__init__` has no alphabet/idle-marker collision
check: adding the reserved marker `#` to the alphabet of any valid NFH
still passes every `assert`, so such an automaton is constructed and
usable for search. -/
theorem idle_in_alphabet_accepted (A : NFH) (h : nfhValid A = true) :
    nfhValid { A with alphabet := "#" :: A.alphabet } = true := by
  simp only [nfhValid, Bool.and_eq_true] at h ⊢
  obtain ⟨⟨⟨⟨pre, h7⟩, h8⟩, h9⟩, h10⟩ := h
  refine ⟨⟨⟨⟨pre, ?_⟩, h8⟩, h9⟩, h10⟩
  simp only [List.all_eq_true] at h7 ⊢
  intro t ht s hs
  have hsym := h7 t ht s hs
  simp only [Bool.or_eq_true] at hsym ⊢
  rcases hsym with hin | hidle
  · refine Or.inl ?_
    have hmem : s ∈ A.alphabet := by simpa using hin
    simp [List.contains_cons, hmem]
  · exact Or.inr hidle

/-- C6 witness: the preservation theorem applied to scenario 1's
automaton. -/
theorem idle_in_alphabet_accepted_witness :
    nfhValid scenarioOneNFH = true ∧
    nfhValid { scenarioOneNFH with
      alphabet := "#" :: scenarioOneNFH.alphabet } = true :=
  ⟨by decide, idle_in_alphabet_accepted scenarioOneNFH (by decide)⟩

/-- C6 counterexample: `sharpAlphabetNFH` declares `#` inside its
alphabet, passes every construction `assert`, and is perfectly usable for
search — `checkMembership` accepts the empty word on it — so construction
does not fail on an alphabet/idle-marker collision. -/
theorem sharp_alphabet_constructs_counterexample :
    nfhValid sharpAlphabetNFH = true ∧
    sharpAlphabetNFH.alphabet.contains "#" = true ∧
    checkMembership sharpAlphabetNFH [[]] 3 = some (true, [[]]) :=
  ⟨by decide, by decide, rfl⟩

/-- C7 (confirmed): over the empty hyperword, `check_models` on a prefix
headed by `Exists` returns `(False, [])` and on a prefix headed by
`ForAll` returns `(True, [])`, for every automaton, fuel, variable index,
remaining prefix and partial assignment. -/
theorem empty_hyperword_vacuity :
    ∀ (A : NFH) (fuel : Nat) (i : Int) (qs : List Quantifier)
      (asn : Assignment),
      check_models A [] fuel (("E", i) :: qs) asn = some (false, []) ∧
      check_models A [] fuel (("A", i) :: qs) asn = some (true, []) :=
  fun _ _ _ _ _ => ⟨rfl, rfl⟩

/-- C9 (confirmed): whenever the quantifier evaluator — `check_models` on
any quantifier list and partial assignment, or `checkMembership` — answers
`False`, the accompanying witness list is empty. -/
theorem false_verdict_no_witnesses :
    ∀ (A : NFH) (S : Hyperword) (fuel : Nat) (qs : List Quantifier)
      (asn : Assignment) (ws : List Hist),
      (check_models A S fuel qs asn = some (false, ws) → ws = []) ∧
      (checkMembership A S fuel = some (false, ws) → ws = []) :=
  fun A S fuel qs asn ws =>
    ⟨check_models_false_empty qs A S fuel asn ws,
      checkMembership_false_empty A S fuel ws⟩

/-- C9 witness: scenario 1's automaton rejects the word `b`, and the
theorem instantiated there yields the (indeed empty) witness list. -/
theorem false_verdict_no_witnesses_witness :
    checkMembership scenarioOneNFH [["b"]] 5 = some (false, []) ∧
    ([] : List Hist) = [] :=
  ⟨rfl,
    (false_verdict_no_witnesses scenarioOneNFH [["b"]] 5 [] [] []).2 rfl⟩

/-- C10 (confirmed): a `RunManager` created without an explicit initial
state starts from the arbitrarily-first element of `initial_states`; the
whole quantifier evaluator depends on `initial_states` only through that
one chosen state (replacing every other initial state changes nothing);
and on `twoInitialNFH`, whose sole accepting run starts from the
non-chosen initial state `q1`, the verdict on the hyperword containing the
word `a` is `False` even though a run from `q1` accepts. -/
theorem default_initial_state_only :
    (∀ (A : NFH) (q : String) (rest : List String),
        A.initial_states = q :: rest → defaultInit A = q) ∧
    (∀ (A : NFH) (q : String) (l : List String) (S : Hyperword) (fuel : Nat),
        checkMembership { A with initial_states := q :: l } S fuel =
          checkMembership { A with initial_states := [q] } S fuel) ∧
    checkMembership twoInitialNFH [["a"]] 5 = some (false, []) ∧
    runFuel twoInitialNFH 5 "q1" [["a"]] [] =
      some (true, [("q1", ["a"], "q2")]) := by
  refine ⟨?_, ?_, rfl, rfl⟩
  · intro A q rest h
    simp [defaultInit, h]
  · intro A q l S fuel
    exact checkMembership_congr { A with initial_states := q :: l }
      { A with initial_states := [q] } rfl rfl rfl rfl rfl S fuel

/-- C10 witness: `twoInitialNFH` lists `q0` first, and the chosen default
initial state is `q0`. -/
theorem default_initial_state_only_witness :
    twoInitialNFH.initial_states = "q0" :: ["q1"] ∧
    defaultInit twoInitialNFH = "q0" :=
  ⟨rfl, default_initial_state_only.1 twoInitialNFH "q0" ["q1"] rfl⟩
/-- `validSyms` walks the tracks pairwise: it holds iff every paired
symbol is the idle marker or the current character of its buffer. -/
lemma validSyms_iff_forall_zip :
    ∀ (ss : List String) (bs : Bufs),
      validSyms ss bs = true ↔
        ∀ pr ∈ ss.zip bs, pr.1 = "#" ∨ pr.1 = currentChar pr.2 := by
  intro ss
  induction ss with
  | nil => intro bs; simp [validSyms]
  | cons s ss ih =>
    intro bs
    cases bs with
    | nil => simp [validSyms]
    | cons b bs =>
      constructor
      · intro hv pr hpr
        by_cases hcond : (s != "#" && s != currentChar b) = true
        · rw [validSyms, if_pos hcond] at hv; simp at hv
        · rw [validSyms, if_neg hcond] at hv
          simp only [Bool.and_eq_true, bne_iff_ne, ne_eq, not_and, not_not,
            Classical.not_imp] at hcond
          rcases List.mem_cons.mp hpr with hhd | htl
          · subst hhd
            by_cases hidle : s = "#"
            · exact Or.inl hidle
            · exact Or.inr (by_contra fun hne => hne (hcond hidle))
          · exact (ih bs).mp hv pr htl
      · intro hall
        have hhd : s = "#" ∨ s = currentChar b :=
          hall (s, b) (List.mem_cons_self _ _)
        have htl := (ih bs).mpr (fun pr hpr => hall pr (List.mem_cons_of_mem _ hpr))
        rw [validSyms]
        rcases hhd with hidle | hchar
        · simp [hidle, htl]
        · simp [hchar, htl]

/-- The code's per-track test, read at cursor `n` of the original word
`w`: idle always passes, otherwise the symbol must be the character at
position `n`, and a position past end-of-word admits only idle. -/
lemma idle_or_char_iff (s : String) (w : Word) (n : Nat) :
    (s = "#" ∨ s = currentChar (w.drop n)) ↔ (s = "#" ∨ w[n]? = some s) := by
  have hc : currentChar (w.drop n) = (w[n]?).getD "#" := by
    rw [currentChar, List.headD_eq_head?_getD, List.head?_drop]
  rw [hc]
  rcases hw : w[n]? with _ | c
  · simp
  · simp only [Option.getD_some, Option.some.injEq]
    constructor
    · rintro (h | h)
      · exact Or.inl h
      · exact Or.inr h.symm
    · rintro (h | h)
      · exact Or.inl h
      · exact Or.inr h.symm

/-- Moving over buffers viewed through cursors is exactly advancing each
cursor by one on the non-idle tracks: `popleft` of `w.drop n` is
`w.drop (n + 1)`. -/
lemma moveBufs_bufsOf :
    ∀ (syms : List String) (ws : List Word) (p : List Nat),
      syms.length = ws.length → p.length = ws.length →
      moveBufs syms (bufsOf ws p) = bufsOf ws (advanceCursors syms p) := by
  intro syms
  induction syms with
  | nil =>
    intro ws p h1 h2
    cases ws with
    | nil =>
      cases p with
      | nil => rfl
      | cons n p2 => simp at h2
    | cons w ws2 => simp at h1
  | cons s ss ih =>
    intro ws p h1 h2
    cases ws with
    | nil => simp at h1
    | cons w ws2 =>
      cases p with
      | nil => simp at h2
      | cons n p2 =>
        have h1s : ss.length = ws2.length := by simpa using h1
        have h2s : p2.length = ws2.length := by simpa using h2
        have hrec := ih ws2 p2 h1s h2s
        simp only [bufsOf, advanceCursors] at hrec
        by_cases hs : s = "#"
        · simp [moveBufs, bufsOf, advanceCursors, hs, hrec]
        · simp [moveBufs, bufsOf, advanceCursors, hs, List.tail_drop, hrec]

/-- Every transition of a valid NFH carries a symbol vector of length
`k`. -/
lemma valid_nfh_sym_length (A : NFH) (t : Transition)
    (hv : nfhValid A = true) (ht : t ∈ A.delta) :
    (t.2.1.length : Int) = A.k := by
  simp only [nfhValid, Bool.and_eq_true, List.all_eq_true,
    decide_eq_true_eq] at hv
  exact hv.1.1.2 t ht

/-- A member of the transition index is a member of `delta` with the
indexed source. -/
lemma transitionMap_mem (A : NFH) (q : String) (t : Transition)
    (ht : t ∈ transitionMap A q) : t ∈ A.delta := by
  exact (List.mem_filter.mp ht).1

/-- C4 (confirmed): at state `q` with cursor vector `p` over words `ws`, a
transition is returned as applicable iff it is an outgoing transition of
`q` and, on every track, its symbol is the idle marker or the character of
that track's word at the track's cursor (positions past end-of-word admit
only idle); and consuming an applicable transition advances the cursor by
exactly one on every non-idle track, leaving idle tracks unchanged. -/
theorem transition_applicability_and_advance (A : NFH) (q : String)
    (ws : List Word) (p : List Nat) (t : Transition)
    (hv : nfhValid A = true) (hws : (ws.length : Int) = A.k)
    (hp : p.length = ws.length) :
    (t ∈ valid_transitions A q (bufsOf ws p) ↔
      t ∈ transitionMap A q ∧
        ∀ (i : Nat) (hi : i < t.2.1.length) (hw : i < ws.length)
          (hpi : i < p.length),
          t.2.1.get ⟨i, hi⟩ = "#" ∨
            (ws.get ⟨i, hw⟩)[(p.get ⟨i, hpi⟩)]? = some (t.2.1.get ⟨i, hi⟩)) ∧
    (t ∈ valid_transitions A q (bufsOf ws p) →
      moveBufs t.2.1 (bufsOf ws p) = bufsOf ws (advanceCursors t.2.1 p)) := by
  have hblen : (bufsOf ws p).length = ws.length := by
    simp [bufsOf, List.length_zipWith, hp]
  have hsymlen : ∀ t2 : Transition, t2 ∈ transitionMap A q →
      t2.2.1.length = ws.length := by
    intro t2 ht2
    have hint := valid_nfh_sym_length A t2 hv (transitionMap_mem A q t2 ht2)
    rw [← hws] at hint
    exact_mod_cast hint
  constructor
  · constructor
    · intro ht
      have hmf := List.mem_filter.mp ht
      have htm : t ∈ transitionMap A q := hmf.1
      refine ⟨htm, ?_⟩
      intro i hi hw hpi
      have hzs := (validSyms_iff_forall_zip t.2.1 (bufsOf ws p)).mp hmf.2
      have hizip : i < (t.2.1.zip (bufsOf ws p)).length := by
        rw [List.length_zip]
        exact lt_min hi (hblen ▸ hw)
      have hbw : i < (bufsOf ws p).length := hblen ▸ hw
      have hpair : (t.2.1.zip (bufsOf ws p)).get ⟨i, hizip⟩ =
          (t.2.1.get ⟨i, hi⟩, (bufsOf ws p).get ⟨i, hbw⟩) := by
        simp [List.getElem_zip]
      have hmem : (t.2.1.get ⟨i, hi⟩, (bufsOf ws p).get ⟨i, hbw⟩) ∈
          t.2.1.zip (bufsOf ws p) :=
        hpair ▸ List.get_mem _ i hizip
      have hd := hzs _ hmem
      have hbval : (bufsOf ws p).get ⟨i, hbw⟩ =
          (ws.get ⟨i, hw⟩).drop (p.get ⟨i, hpi⟩) := by
        simp [bufsOf, List.get_eq_getElem, List.getElem_zipWith]
      rw [hbval] at hd
      exact (idle_or_char_iff _ _ _).mp hd
    · rintro ⟨htm, hall⟩
      rw [valid_transitions, List.mem_filter]
      refine ⟨htm, (validSyms_iff_forall_zip _ _).mpr ?_⟩
      intro pr hpr
      obtain ⟨⟨i, hiz⟩, hget⟩ := List.mem_iff_get.mp hpr
      have hminz := hiz
      rw [List.length_zip, lt_min_iff] at hminz
      have hi : i < t.2.1.length := hminz.1
      have hb : i < (bufsOf ws p).length := hminz.2
      have hw2 : i < ws.length := hblen ▸ hb
      have hpi : i < p.length := by rw [hp]; exact hw2
      have hpair : (t.2.1.zip (bufsOf ws p)).get ⟨i, hiz⟩ =
          (t.2.1.get ⟨i, hi⟩, (bufsOf ws p).get ⟨i, hb⟩) := by
        simp [List.getElem_zip]
      rw [← hget, hpair]
      have hbval : (bufsOf ws p).get ⟨i, hb⟩ =
          (ws.get ⟨i, hw2⟩).drop (p.get ⟨i, hpi⟩) := by
        simp [bufsOf, List.get_eq_getElem, List.getElem_zipWith]
      show t.2.1.get ⟨i, hi⟩ = "#" ∨
        t.2.1.get ⟨i, hi⟩ = currentChar ((bufsOf ws p).get ⟨i, hb⟩)
      rw [hbval]
      exact (idle_or_char_iff _ _ _).mpr (hall i hi hw2 hpi)
  · intro ht
    have htm := (List.mem_filter.mp ht).1
    exact moveBufs_bufsOf t.2.1 ws p (hsymlen t htm) hp

/-- C4 witness: the applicability theorem applied to scenario 1's
automaton at its initial configuration, all hypotheses discharged
concretely. -/
theorem transition_applicability_and_advance_witness :
    nfhValid scenarioOneNFH = true ∧
    (((("q0", ["a"], "q1") : Transition) ∈
        valid_transitions scenarioOneNFH "q0" (bufsOf [["a"]] [0])) →
      moveBufs ["a"] (bufsOf [["a"]] [0]) =
        bufsOf [["a"]] (advanceCursors ["a"] [0])) :=
  ⟨by decide,
    (transition_applicability_and_advance scenarioOneNFH "q0" [["a"]] [0]
      ("q0", ["a"], "q1") (by decide) (by decide) rfl).2⟩

/-- On a one-word hyperword both quantifiers degenerate to binding the
track to that word: one quantifier frame is exactly one `insertA`. -/
lemma cm_singleton_step (A : NFH) (w : Word) (fuel : Nat) (qt : String)
    (idx : Int) (rest : List Quantifier) (asn : Assignment)
    (hq : qt = "E" ∨ qt = "A") :
    check_models A [w] fuel ((qt, idx) :: rest) asn =
      check_models A [w] fuel rest (insertA idx w asn) := by
  rcases hq with hq | hq <;> subst hq
  · simp only [check_models]
    rcases hr : check_models A [w] fuel rest (insertA idx w asn)
      with _ | ⟨b, ms⟩
    · simp [existsScan, hr]
    · cases b
      · have : ms = [] := check_models_false_empty rest A [w] fuel _ ms hr
        subst this
        simp [existsScan, hr]
      · simp [existsScan, hr]
  · simp only [check_models]
    rcases hr : check_models A [w] fuel rest (insertA idx w asn)
      with _ | ⟨b, ms⟩
    · simp [forallScan, hr]
    · cases b
      · have : ms = [] := check_models_false_empty rest A [w] fuel _ ms hr
        subst this
        simp [forallScan, hr]
      · simp [forallScan, hr]

/-- Unrolling every quantifier frame over the singleton hyperword binds
each frame's index to the word and ends at the leaf check. -/
lemma cm_fold (A : NFH) (w : Word) (fuel : Nat) :
    ∀ (pairs : List Quantifier) (asn : Assignment),
      (∀ pr ∈ pairs, pr.1 = "E" ∨ pr.1 = "A") →
      check_models A [w] fuel pairs asn =
        leafCheck A fuel
          (pairs.foldl (fun a pr => insertA pr.2 w a) asn) := by
  intro pairs
  induction pairs with
  | nil => intro asn _; rfl
  | cons pr rest ih =>
    intro asn hq
    obtain ⟨qt, idx⟩ := pr
    rw [cm_singleton_step A w fuel qt idx rest asn
      (hq (qt, idx) (List.mem_cons_self _ _))]
    rw [List.foldl_cons]
    exact ih _ (fun pr2 hpr2 => hq pr2 (List.mem_cons_of_mem _ hpr2))

/-- Indices not bound by the fold keep their old binding. -/
lemma lookupA_foldl_not_mem (w : Word) :
    ∀ (pairs : List Quantifier) (asn : Assignment) (i : Int),
      i ∉ pairs.map Prod.snd →
      lookupA (pairs.foldl (fun a pr => insertA pr.2 w a) asn) i =
        lookupA asn i := by
  intro pairs
  induction pairs with
  | nil => intro asn i _; rfl
  | cons pr rest ih =>
    intro asn i hi
    rw [List.foldl_cons]
    have hne : pr.2 ≠ i := by
      intro h; exact hi (by simp [← h])
    have hrest : i ∉ rest.map Prod.snd := by
      intro h; exact hi (by simp [h])
    rw [ih _ i hrest]
    simp [lookupA, insertA, hne]

/-- Every index the fold binds looks up to the bound word. -/
lemma lookupA_foldl_mem (w : Word) :
    ∀ (pairs : List Quantifier) (asn : Assignment) (i : Int),
      i ∈ pairs.map Prod.snd →
      lookupA (pairs.foldl (fun a pr => insertA pr.2 w a) asn) i = some w := by
  intro pairs
  induction pairs with
  | nil => intro asn i hi; simp at hi
  | cons pr rest ih =>
    intro asn i hi
    rw [List.foldl_cons]
    by_cases hr : i ∈ rest.map Prod.snd
    · exact ih _ i hr
    · have hieq : pr.2 = i := by
        rw [List.map_cons, List.mem_cons] at hi
        rcases hi with h | h
        · exact h.symm
        · exact absurd h hr
      rw [lookupA_foldl_not_mem w rest _ i hr]
      simp [lookupA, insertA, hieq]

/-- A lookup list whose every index resolves to the same word collects
that word repeated. -/
lemma lookupAll_replicate (w : Word) (asn : Assignment) :
    ∀ (l : List Int), (∀ i ∈ l, lookupA asn i = some w) →
      lookupAll asn l = some (List.replicate l.length w) := by
  intro l
  induction l with
  | nil => intro _; rfl
  | cons i rest ih =>
    intro h
    rw [lookupAll, h i (List.mem_cons_self _ _),
      ih (fun j hj => h j (List.mem_cons_of_mem _ hj))]
    simp [List.replicate_succ]

/-- `range(1, k + 1)` has `k` entries (none when `k ≤ 0`). -/
lemma intRange1_length (k : Int) : (intRange1 k).length = k.toNat := by
  unfold intRange1
  rw [List.length_map, List.length_range]

/-- Evaluating the leaf once the comprehension is known. -/
lemma leafCheck_eval (A : NFH) (fuel : Nat) (asn : Assignment)
    (fa : List Word) (h : lookupAll asn (intRange1 A.k) = some fa) :
    leafCheck A fuel asn =
      match runFuel A fuel (defaultInit A) fa [] with
      | none => none
      | some (true, hh) => some (true, [hh])
      | some (false, _) => some (false, []) := by
  unfold leafCheck
  rw [h]

/-- C8 (confirmed): on a singleton hyperword `{w}` and a valid NFH, the
singleton optimization of `checkMembership` — one `RunManager` search on
the word repeated `k` times — returns exactly what the general quantifier
recursion over the full prefix `zip(alpha, range(1, k + 1))` returns,
whatever mixture of `Exists`/`ForAll` the prefix is. -/
theorem singleton_hyperword_equiv (A : NFH) (w : Word) (fuel : Nat)
    (hv : nfhValid A = true) :
    checkMembership A [w] fuel = singleRun A w fuel ∧
    check_models A [w] fuel (A.alpha.zip (intRange1 A.k)) [] =
      singleRun A w fuel := by
  refine ⟨rfl, ?_⟩
  simp only [nfhValid, Bool.and_eq_true, List.all_eq_true,
    decide_eq_true_eq] at hv
  have hq : ∀ pr ∈ A.alpha.zip (intRange1 A.k), pr.1 = "E" ∨ pr.1 = "A" := by
    intro pr hpr
    have := hv.1.2 pr.1 (List.of_mem_zip hpr).1
    simpa using this
  have hlen : (A.alpha.length : Int) = A.k := hv.2
  have hklen : A.alpha.length = A.k.toNat := by omega
  rw [cm_fold A w fuel _ [] hq]
  have hsnd : (A.alpha.zip (intRange1 A.k)).map Prod.snd = intRange1 A.k :=
    List.map_snd_zip _ _ (by rw [intRange1_length, hklen])
  have hlook : ∀ i ∈ intRange1 A.k,
      lookupA ((A.alpha.zip (intRange1 A.k)).foldl
        (fun a pr => insertA pr.2 w a) []) i = some w := by
    intro i hi
    exact lookupA_foldl_mem w _ [] i (by rw [hsnd]; exact hi)
  have hall := lookupAll_replicate w _ (intRange1 A.k) hlook
  rw [leafCheck_eval A fuel _ _ hall, intRange1_length]
  rfl

/-- C8 witness: the equivalence at scenario 1's automaton on the
singleton hyperword containing the word `a`. -/
theorem singleton_hyperword_equiv_witness :
    nfhValid scenarioOneNFH = true ∧
    (checkMembership scenarioOneNFH [["a"]] 5 =
        singleRun scenarioOneNFH ["a"] 5 ∧
      check_models scenarioOneNFH [["a"]] 5
          (scenarioOneNFH.alpha.zip (intRange1 scenarioOneNFH.k)) [] =
        singleRun scenarioOneNFH ["a"] 5) :=
  ⟨by decide, singleton_hyperword_equiv scenarioOneNFH ["a"] 5 (by decide)⟩
